import Mathlib

/-!
Verification of the generate → execute → recover core of the AI-Analyst agent
(`backend/app/services/agentic_analyst.py`, class `AgenticAnalyst`).

Python text is modelled as `List Char`.  Each definition below is a shallow
embedding of the correspondingly named Python method; comments cite the source
lines they translate.
-/

/-! ## Python string primitives

`str.strip()`, `str.split('\n')`, `'\n'.join`, `in` (substring test) and
`str.replace(pat, "")`, as used by `_clean_code`.  Whitespace is the ASCII
whitespace set stripped by Python's `str.strip()`.
-/

def isPyWs (c : Char) : Bool :=
  c == ' ' || c == '\t' || c == '\n' || c == '\r' || c == '\x0b' || c == '\x0c'

/-- Python `s.strip()` : drop leading then trailing whitespace. -/
def pyStrip (l : List Char) : List Char :=
  List.rdropWhile isPyWs (List.dropWhile isPyWs l)

/-- Python `s.split('\n')`. -/
def splitLines : List Char → List (List Char)
  | [] => [[]]
  | c :: cs =>
    if c = '\n' then [] :: splitLines cs
    else
      match splitLines cs with
      | [] => [[c]]
      | h :: t => (c :: h) :: t

/-- Python `'\n'.join(lines)`. -/
def joinLines : List (List Char) → List Char
  | [] => []
  | [l] => l
  | l :: ls => l ++ '\n' :: joinLines ls

/-- Python `pat in s` (substring containment). -/
def hasSub (pat : List Char) : List Char → Bool
  | [] => pat.isEmpty
  | c :: cs => pat.isPrefixOf (c :: cs) || hasSub pat cs

/-- Python `s.replace(pat, "")`: delete every occurrence of `pat`,
scanning left to right, non-overlapping. -/
def replaceAllE (pat : List Char) : List Char → List Char
  | [] => []
  | c :: cs =>
    if pat.isPrefixOf (c :: cs) then replaceAllE pat (List.drop (pat.length - 1) cs)
    else c :: replaceAllE pat cs
termination_by l => l.length
decreasing_by
  · simp only [List.length_drop, List.length_cons]; omega
  · simp only [List.length_cons]; omega

/-! ## The Result Normalizer: `_serialize_result` (source lines 414-447)

Python runtime values that can appear in the `result` binding.  `Prim` is a
cell-level primitive; a `dataframe` is carried in record orientation (one
column-keyed map per row), a `series` as a name-keyed map; `np_int`/`np_float`
are NumPy scalar wrappers (float payloads are opaque encodings: no claim
depends on float arithmetic), `ndarray` a NumPy array whose `tolist()` is
already primitive.
-/

inductive Prim where
  | pstr (s : String)
  | pint (n : Int)
  | pbool (b : Bool)
  | pnull
deriving DecidableEq, Repr

inductive PyVal where
  | none
  | dataframe (rows : List (List (String × Prim)))
  | series (entries : List (String × Prim))
  | np_int (n : Int)
  | np_float (enc : Int)
  | ndarray (elems : List Prim)
  | pylist (elems : List PyVal)
  | pydict (entries : List (String × PyVal))
  | pyint (n : Int)
  | pyfloat (enc : Int)
  | pybool (b : Bool)
  | pystr (s : String)
deriving Repr

def primToVal : Prim → PyVal
  | .pstr s => .pystr s
  | .pint n => .pyint n
  | .pbool b => .pybool b
  | .pnull => .none

/-- One row of `DataFrame.to_dict(orient='records')`. -/
def dfRecord (r : List (String × Prim)) : PyVal :=
  .pydict (r.map fun kv => (kv.1, primToVal kv.2))

/-- `AgenticAnalyst._serialize_result` (lines 414-447): convert a result value
to a JSON-serializable form.  DataFrames longer than 100 rows are first cut to
`head(100)`; lists and dicts are converted element-wise; NumPy scalars unwrap;
anything already serializable passes through. -/
def serialize_result : PyVal → PyVal
  | .none => .none
  | .dataframe rows =>
    let rows2 := if rows.length > 100 then rows.take 100 else rows
    .pylist (rows2.map dfRecord)
  | .series entries => .pydict (entries.map fun kv => (kv.1, primToVal kv.2))
  | .np_int n => .pyint n
  | .np_float enc => .pyfloat enc
  | .ndarray elems => .pylist (elems.map primToVal)
  | .pylist elems => .pylist (elems.attach.map fun e => serialize_result e.1)
  | .pydict entries => .pydict (entries.attach.map fun e => (e.1.1, serialize_result e.1.2))
  | .pyint n => .pyint n
  | .pyfloat enc => .pyfloat enc
  | .pybool b => .pybool b
  | .pystr s => .pystr s
termination_by v => sizeOf v
decreasing_by
  · have h1 := List.sizeOf_lt_of_mem e.2
    simp only [PyVal.pylist.sizeOf_spec]
    omega
  · have h1 := List.sizeOf_lt_of_mem e.2
    have h2 : sizeOf e.1.2 < sizeOf e.1 := by
      obtain ⟨a, b⟩ := e.1
      simp only [Prod.mk.sizeOf_spec]
      omega
    simp only [PyVal.pydict.sizeOf_spec]
    omega

/-! ## The Code Sanitizer: `_clean_code` (source lines 331-365)

Step 1 (lines 335-345): if the text contains a fence marker, extract the first
match of the regex `r'```(?:python|py)?\n(.*?)```'` (DOTALL, lazy capture); if
the regex does not match anywhere, fall back to deleting the fence markers
`"```python"`, `"```py"`, `"```"` in that order and stripping.
Step 2 (lines 347-363): scan the lines, drop leading lines until the first one
that is non-empty, does not start with a conversational word, and looks like
code (starts with a code token or contains an assignment).
Step 3 (line 365): strip the result.
-/

def triTicks : List Char := "```".toList

def fencePythonTag : List Char := "```python".toList

def fencePyTag : List Char := "```py".toList

/-- What the regex `` ```(?:python|py)?\n `` can consume at this position.
The three alternatives are mutually exclusive because of the required
newline, so a prefix test in alternation order is exact. -/
def openFenceLen (l : List Char) : Option Nat :=
  if ("```python\n".toList).isPrefixOf l then some 10
  else if ("```py\n".toList).isPrefixOf l then some 6
  else if ("```\n".toList).isPrefixOf l then some 4
  else none

/-- The lazy capture `(.*?)` up to the first closing fence; `none` when no
closing fence follows. -/
def captureUpToTicks : List Char → Option (List Char)
  | [] => none
  | c :: cs =>
    if triTicks.isPrefixOf (c :: cs) then some []
    else (captureUpToTicks cs).map fun t => c :: t

/-- `re.findall(r'```(?:python|py)?\n(.*?)```', code, re.DOTALL)` restricted to
its first capture: scan positions left to right, match the opening fence, then
capture lazily up to the first closing fence. -/
def findFence : List Char → Option (List Char)
  | [] => none
  | c :: cs =>
    match openFenceLen (c :: cs) with
    | some k =>
      match captureUpToTicks (List.drop k (c :: cs)) with
      | some cap => some cap
      | none => findFence cs
    | none => findFence cs

/-- Python `"```" in code`. -/
def hasFence (code : List Char) : Bool := hasSub triTicks code

def convStartList : List (List Char) :=
  ["Here".toList, "Let".toList, "Okay".toList, "I ".toList, "The ".toList,
   "This ".toList, "We ".toList, "Now ".toList]

def codeStartList : List (List Char) :=
  ["import ".toList, "from ".toList, "def ".toList, "#".toList, "class ".toList,
   "if ".toList, "for ".toList, "while ".toList, "try:".toList, "with ".toList]

/-- Loop body test of lines 353-360: the first line satisfying this is where
the code starts. -/
def predLine (line : List Char) : Bool :=
  let stripped := pyStrip line
  !stripped.isEmpty &&
    !(convStartList.any fun p => p.isPrefixOf stripped) &&
    ((codeStartList.any fun p => p.isPrefixOf stripped) || stripped.contains '=')

/-- Index of the first line that looks like code (the `for i, line in
enumerate(lines)` loop with its `break`). -/
def findCodeStart : List (List Char) → Option Nat
  | [] => none
  | l :: ls => if predLine l then some 0 else (findCodeStart ls).map (· + 1)

/-- Lines 347-365: preamble dropping (`code_start` stays 0 when no line
qualifies or the first line already qualifies) followed by the final strip. -/
def lineClean (code : List Char) : List Char :=
  match findCodeStart (splitLines code) with
  | some i =>
    if i > 0 then pyStrip (joinLines ((splitLines code).drop i)) else pyStrip code
  | none => pyStrip code

/-- Lines 335-345: fenced-block extraction (or marker-deletion fallback). -/
def fenceStep (code : List Char) : List Char :=
  if hasFence code then
    match findFence code with
    | some cap => pyStrip cap
    | none => pyStrip (replaceAllE triTicks (replaceAllE fencePyTag (replaceAllE fencePythonTag code)))
  else code

def cleanCodeL (code : List Char) : List Char := lineClean (fenceStep code)

/-- `AgenticAnalyst._clean_code` on Python strings. -/
def clean_code (code : String) : String := ⟨cleanCodeL code.data⟩

/-- Python `s.strip()` on strings (used on the raw generation output,
line 324). -/
def py_strip (s : String) : String := ⟨pyStrip s.data⟩

/-! ## The Execution Sandbox outcome: `_execute_code` (source lines 367-412)

The behaviour of one `exec` of generated code is an oracle: either a runtime
fault `(message, formatted traceback)`, or a normal finish with an optional
`result` binding and the captured stdout/stderr texts.  `execute_code` maps it
to what the Python method does: on a fault it RAISES (models the `raise
Exception(...)` of line 403, as an `Except.error` with the enriched message);
on normal finish it returns the outcome dict of lines 408-412.
-/

structure ExecOk where
  resultBinding : Option PyVal
  stdoutText : String
  stderrText : String

def PyBehavior : Type := Except (String × String) ExecOk

structure ExecOutcome where
  value : PyVal
  output : String
  errors : Option String

def isOkE {ε α : Type} : Except ε α → Bool
  | .ok _ => true
  | .error _ => false

def execute_code (b : PyBehavior) : Except String ExecOutcome :=
  match b with
  | .error (msg, tb) =>
    .error ("Code execution error: " ++ msg ++ "\n\nTraceback:\n" ++ tb)
  | .ok o =>
    .ok ⟨(match o.resultBinding with
          | some v => serialize_result v
          | none => .none),
         o.stdoutText,
         if o.stderrText = "" then none else some o.stderrText⟩

/-! ## The Retry Controller: `analyze` (source lines 49-125)

Oracles (indexed by the 1-based attempt number) stand for the environment:
`load` for `_load_excel_sheets` (raising = `Except.error`), `gen` for the raw
text of the `groq_client.code_generation` call inside
`_generate_analysis_code`, `execB` for the behaviour of `exec` on the
generated code, `expl` for `_generate_explanation`'s LLM call.  The returned
trace records every call made to the Code Generation Client: the
`error_context` handed over by `analyze` (line 84), the prior-failure data
actually interpolated into the prompt (lines 198-211) and the temperature
(line 320, in tenths).  `analyze` itself never raises: its whole body sits in
the `try` of line 67 whose handler (lines 118-125) converts any exception into
the failure dict.
-/

def max_attempts : Nat := 3

structure ErrCtx where
  errMsg : String
  tbText : String
  codeText : Option String
deriving DecidableEq, Repr

structure GenCall where
  attemptIdx : Nat
  errorContext : Option ErrCtx
  priorInPrompt : Option ErrCtx
  temperatureTenths : Nat
deriving DecidableEq, Repr

structure SuccessRec where
  codeText : String
  outcome : ExecOutcome
  explText : String
  attemptsUsed : Nat

inductive DVal where
  | b (bv : Bool)
  | s (sv : String)
  | n (nv : Nat)
  | out (o : ExecOutcome)

/-- The success return dict (lines 95-102). -/
def successDict (q : String) (r : SuccessRec) : List (String × DVal) :=
  [("success", .b true), ("query", .s q), ("code", .s r.codeText),
   ("result", .out r.outcome), ("explanation", .s r.explText),
   ("attempts", .n r.attemptsUsed)]

/-- The failure return dict built by the outer handler (lines 118-125). -/
def failDict (q m : String) : List (String × DVal) :=
  [("success", .b false), ("query", .s q), ("error", .s m),
   ("explanation", .s ("Error occurred during analysis after " ++
      toString max_attempts ++ " attempts: " ++ m)),
   ("attempts", .n max_attempts)]

/-- The generation-call record for attempt `k`: `error_context` is
`last_error if attempt > 0 else None` (line 84); `_generate_analysis_code`
interpolates it only when it is non-None and `attempt > 1` (line 198); the
temperature is `0.1 if attempt > 1 else 0.2` (line 320), kept in tenths. -/
def mkEntry (k : Nat) (lastErr : Option ErrCtx) : GenCall :=
  let ctx := if k > 1 then lastErr else none
  let prior := match ctx with
    | some c => if k > 1 then some c else none
    | none => none
  ⟨k, ctx, prior, if k > 1 then 1 else 2⟩

/-- The `for attempt in range(self.max_attempts)` loop (lines 76-116), as a
fuel recursion.  `lastErr` is the `last_error` local (lines 105-109): note
that its `code` field is `code if 'code' in locals() else None`, so after a
generation fault it retains the code of an EARLIER attempt (`codeVar` models
the `code` local, which is never reset).  `fuel = 0` inside an iteration
means `attempt == self.max_attempts - 1`: the exception is re-raised
(line 113), here surfaced as `Except.error` to the outer handler. -/
def loopGo (gen : Nat → Except String String) (execB : Nat → PyBehavior)
    (expl : Nat → Except String String) :
    Nat → Nat → Option ErrCtx → Option String → List GenCall →
    List GenCall × Except String SuccessRec
  | 0, _, lastErr, _, tr =>
    (tr, .error (match lastErr with | some c => c.errMsg | none => ""))
  | fuel + 1, k, lastErr, codeVar, tr =>
    let tr2 := tr ++ [mkEntry k lastErr]
    match gen k with
    | .error g =>
      if fuel = 0 then (tr2, .error g)
      else loopGo gen execB expl fuel (k + 1) (some ⟨g, "", codeVar⟩) codeVar tr2
    | .ok raw =>
      let codeText := clean_code (py_strip raw)
      match execute_code (execB k) with
      | .error e =>
        if fuel = 0 then (tr2, .error e)
        else loopGo gen execB expl fuel (k + 1) (some ⟨e, "", some codeText⟩)
          (some codeText) tr2
      | .ok outc =>
        match expl k with
        | .error x =>
          if fuel = 0 then (tr2, .error x)
          else loopGo gen execB expl fuel (k + 1) (some ⟨x, "", some codeText⟩)
            (some codeText) tr2
        | .ok ex => (tr2, .ok ⟨codeText, outc, ex, k⟩)

/-- `AgenticAnalyst.analyze` (lines 49-125).  Returns the trace of generation
calls together with the returned dict.  The table set carries opaque object
ids; `_analyze_dataframes` only shapes prompt text and is not needed by any
claim. -/
def analyze (q : String) (load : Except String (List (String × Nat)))
    (gen : Nat → Except String String) (execB : Nat → PyBehavior)
    (expl : Nat → Except String String) :
    List GenCall × List (String × DVal) :=
  match load with
  | .error m => ([], failDict q m)
  | .ok _tables =>
    match loopGo gen execB expl max_attempts 1 none none [] with
    | (tr, .ok sr) => (tr, successDict q sr)
    | (tr, .error m) => (tr, failDict q m)

/-- Attempt `j` runs to the success return: generation, execution and the
explanation call (line 93, still inside the loop's `try`) all succeed. -/
def attempt_ok (gen : Nat → Except String String) (execB : Nat → PyBehavior)
    (expl : Nat → Except String String) (j : Nat) : Bool :=
  isOkE (gen j) && isOkE (execute_code (execB j)) && isOkE (expl j)

/-- Generation or execution faults on attempt `j` (the explanation step is
never reached). -/
def gen_or_exec_fault (gen : Nat → Except String String)
    (execB : Nat → PyBehavior) (j : Nat) : Bool :=
  !(isOkE (gen j) && isOkE (execute_code (execB j)))

/-- The message of the exception attempt `j` raises inside the loop. -/
def attempt_fault_msg (gen : Nat → Except String String)
    (execB : Nat → PyBehavior) (expl : Nat → Except String String)
    (j : Nat) : String :=
  match gen j with
  | .error g => g
  | .ok _ =>
    match execute_code (execB j) with
    | .error e => e
    | .ok _ => match expl j with | .error x => x | .ok _ => ""

/-- The value of the `code` local after attempt `j` given its value before:
a successful generation overwrites it, a generation fault leaves the stale
value (`'code' in locals()`). -/
def code_after (gen : Nat → Except String String) (cv : Option String)
    (j : Nat) : Option String :=
  match gen j with
  | .error _ => cv
  | .ok raw => some (clean_code (py_strip raw))

/-- The `code` local after attempts `1..j`. -/
def last_code (gen : Nat → Except String String) : Nat → Option String
  | 0 => none
  | j + 1 => code_after gen (last_code gen j) (j + 1)

/-! Concrete oracles used by counterexamples and witnesses. -/

def genAllFail : Nat → Except String String := fun j => .error ("gen fail " ++ toString j)

def genOk : Nat → Except String String := fun _ => .ok "x = 1"

def execFailB : Nat → PyBehavior := fun j => .error ("exec fail " ++ toString j, "tb" ++ toString j)

def execOkB : Nat → PyBehavior := fun _ => .ok ⟨some (.pyint 1), "", ""⟩

def explFail : Nat → Except String String := fun _ => .error "explanation service down"

def explOkO : Nat → Except String String := fun _ => .ok "fine"

def genC8 : Nat → Except String String := fun j => if j = 2 then .error "gen fault 2" else .ok "x = 1"

def execC8 : Nat → PyBehavior := fun j =>
  if j = 1 then .error ("err1", "tb1") else .ok ⟨some (.pyint 1), "", ""⟩

/-! ## The binding scope, name view: `__init__` (lines 28-47) and
`_execute_code` lines 377-379 together with CPython `exec` semantics

`exec_globals = self.safe_globals.copy()` then `exec_globals.update(df_dict)`.
`dict_update` follows Python `dict.update`: existing keys are overwritten in
place, new keys are appended in insertion order.  CPython's `exec` (the
documented semantics of `exec`/`eval`) inserts a `__builtins__` entry bound to
the full `builtins` module into any globals dict that lacks one, and name
lookup in the executed code falls back to that module, so its members are
reachable by bare name.  `builtins_members` lists a few of them. -/

inductive PyObj where
  | module (name : String)
  | builtinFn (name : String)
  | table (id : Nat)
  | builtinsModule
deriving DecidableEq, Repr

/-- `self.safe_globals` (lines 30-46). -/
def safe_globals : List (String × PyObj) :=
  [("pd", .module "pandas"), ("np", .module "numpy"), ("json", .module "json"),
   ("print", .builtinFn "print"), ("len", .builtinFn "len"), ("sum", .builtinFn "sum"),
   ("min", .builtinFn "min"), ("max", .builtinFn "max"), ("round", .builtinFn "round"),
   ("abs", .builtinFn "abs"), ("float", .builtinFn "float"), ("int", .builtinFn "int"),
   ("str", .builtinFn "str"), ("list", .builtinFn "list"), ("dict", .builtinFn "dict")]

def dict_copy (d : List (String × PyObj)) : List (String × PyObj) := d

def dict_update (d u : List (String × PyObj)) : List (String × PyObj) :=
  (d.map fun kv => match u.lookup kv.1 with | some v => (kv.1, v) | none => kv) ++
    u.filter fun kv => (d.lookup kv.1).isNone

/-- Lines 378-379: the dict handed to `exec`. -/
def build_globals (tables : List (String × PyObj)) : List (String × PyObj) :=
  dict_update (dict_copy safe_globals) tables

/-- CPython: `exec` inserts `__builtins__` when the globals dict lacks it. -/
def exec_effective_globals (g : List (String × PyObj)) : List (String × PyObj) :=
  if (g.lookup "__builtins__").isSome then g else g ++ [("__builtins__", .builtinsModule)]

/-- A few members of the `builtins` module (far from exhaustive). -/
def builtins_members : List String :=
  ["open", "eval", "exec", "compile", "__import__", "getattr", "setattr",
   "delattr", "globals", "locals", "vars", "type", "input", "breakpoint"]

/-- Names resolvable by the executed code: the keys of the effective globals
dict plus, through the `__builtins__` fallback of CPython name resolution,
the members of the builtins module. -/
def reachable_names (g : List (String × PyObj)) : List String :=
  g.map Prod.fst ++
    (if g.lookup "__builtins__" = some .builtinsModule then builtins_members else [])

/-! ## The binding scope, sharing view: `_execute_code` lines 377-379

`dict.copy()` is a SHALLOW copy: a fresh dict whose entries point at the same
objects.  The scope maps names to references, the store maps references to
object payloads.  Generated code can rebind a name in its own scope
(`GenEff.rebind`) or mutate the object behind a reference in place
(`GenEff.inplace`, e.g. `df['X'] = 0`).  Each attempt folds its effects over a
freshly built scope, but the store — and `df_dict`, reused by every attempt of
one `analyze` call — persists. -/

def Store : Type := Nat → Int

/-- `self.safe_globals` with one object reference per primitive. -/
def safe_globals_refs : List (String × Nat) :=
  List.zip (safe_globals.map Prod.fst) (List.range safe_globals.length)

def dict_copy_refs (d : List (String × Nat)) : List (String × Nat) := d

def dict_update_refs (d u : List (String × Nat)) : List (String × Nat) :=
  (d.map fun kv => match u.lookup kv.1 with | some v => (kv.1, v) | none => kv) ++
    u.filter fun kv => (d.lookup kv.1).isNone

/-- Lines 378-379 at reference level: `safe_globals.copy()` then
`update(df_dict)`. -/
def build_scope (tables : List (String × Nat)) : List (String × Nat) :=
  dict_update_refs (dict_copy_refs safe_globals_refs) tables

inductive GenEff where
  | rebind (name : String) (r : Nat)
  | inplace (r : Nat) (v : Int)

/-- Python dict assignment `scope[name] = r`. -/
def scope_set (sc : List (String × Nat)) (n : String) (r : Nat) : List (String × Nat) :=
  if (sc.lookup n).isSome then sc.map fun kv => if kv.1 = n then (n, r) else kv
  else sc ++ [(n, r)]

def apply_eff (p : List (String × Nat) × Store) (e : GenEff) :
    List (String × Nat) × Store :=
  match e with
  | .rebind n r => (scope_set p.1 n r, p.2)
  | .inplace r v => (p.1, fun x => if x = r then v else p.2 x)

/-- One attempt: build the scope fresh (line 378-379), run the code's
effects, keep only the store (the scope dies with the attempt). -/
def run_attempt (tables : List (String × Nat)) (effs : List GenEff) (st : Store) :
    Store :=
  (effs.foldl apply_eff (build_scope tables, st)).2

/-- What a later attempt sees when it reads binding `n` of its own fresh
scope against store `st`. -/
def read_binding (tables : List (String × Nat)) (st : Store) (n : String) :
    Option Int :=
  ((build_scope tables).lookup n).map st

/-! Concrete oracles for witnesses. -/

def genW3 : Nat → Except String String := fun j => if j = 1 then .error "boom" else .ok "x = 1"

/-! Auxiliary notions for the sanitizer proofs. -/

/-- The backtick character. -/
def tickChar : Char := Char.ofNat 96

/-- Characters other than a line feed. -/
def notNL (c : Char) : Bool := c != '\n'

/-- Length of the leading run of backticks. -/
def leadTicks : List Char → Nat
  | [] => 0
  | c :: cs => if c = tickChar then leadTicks cs + 1 else 0

/-! ## Lemmas about one iteration of the retry loop -/

theorem loopGo_succ_ok (gen : Nat → Except String String) (execB : Nat → PyBehavior)
    (expl : Nat → Except String String) (fuel k : Nat) (le : Option ErrCtx)
    (cv : Option String) (tr : List GenCall)
    (h : attempt_ok gen execB expl k = true) :
    ∃ raw outc ex, gen k = .ok raw ∧ execute_code (execB k) = .ok outc ∧
      expl k = .ok ex ∧
      loopGo gen execB expl (fuel + 1) k le cv tr =
        (tr ++ [mkEntry k le], .ok ⟨clean_code (py_strip raw), outc, ex, k⟩) := by
  unfold attempt_ok at h
  cases hg : gen k with
  | error g => rw [hg] at h; simp [isOkE] at h
  | ok raw =>
    cases he : execute_code (execB k) with
    | error e => rw [hg, he] at h; simp [isOkE] at h
    | ok outc =>
      cases hx : expl k with
      | error x => rw [hg, he, hx] at h; simp [isOkE] at h
      | ok ex =>
        refine ⟨raw, outc, ex, rfl, rfl, rfl, ?_⟩
        simp [loopGo, hg, he, hx]

theorem loopGo_step_fail (gen : Nat → Except String String) (execB : Nat → PyBehavior)
    (expl : Nat → Except String String) (fuel k : Nat) (le : Option ErrCtx)
    (cv : Option String) (tr : List GenCall) (hf : fuel ≠ 0)
    (h : attempt_ok gen execB expl k = false) :
    loopGo gen execB expl (fuel + 1) k le cv tr =
      loopGo gen execB expl fuel (k + 1)
        (some ⟨attempt_fault_msg gen execB expl k, "", code_after gen cv k⟩)
        (code_after gen cv k) (tr ++ [mkEntry k le]) := by
  unfold attempt_ok at h
  cases hg : gen k with
  | error g =>
    simp [loopGo, hg, hf, attempt_fault_msg, code_after]
  | ok raw =>
    cases he : execute_code (execB k) with
    | error e =>
      simp [loopGo, hg, he, hf, attempt_fault_msg, code_after]
    | ok outc =>
      cases hx : expl k with
      | error x =>
        simp [loopGo, hg, he, hx, hf, attempt_fault_msg, code_after]
      | ok ex => rw [hg, he, hx] at h; simp [isOkE] at h

theorem loopGo_last_fail (gen : Nat → Except String String) (execB : Nat → PyBehavior)
    (expl : Nat → Except String String) (k : Nat) (le : Option ErrCtx)
    (cv : Option String) (tr : List GenCall)
    (h : attempt_ok gen execB expl k = false) :
    loopGo gen execB expl 1 k le cv tr =
      (tr ++ [mkEntry k le], .error (attempt_fault_msg gen execB expl k)) := by
  unfold attempt_ok at h
  cases hg : gen k with
  | error g => simp [loopGo, hg, attempt_fault_msg]
  | ok raw =>
    cases he : execute_code (execB k) with
    | error e => simp [loopGo, hg, he, attempt_fault_msg]
    | ok outc =>
      cases hx : expl k with
      | error x => simp [loopGo, hg, he, hx, attempt_fault_msg]
      | ok ex => rw [hg, he, hx] at h; simp [isOkE] at h

theorem loopGo_trace_mono (gen : Nat → Except String String) (execB : Nat → PyBehavior)
    (expl : Nat → Except String String) :
    ∀ (fuel k : Nat) (le : Option ErrCtx) (cv : Option String) (tr : List GenCall),
      ∃ ext, (loopGo gen execB expl fuel k le cv tr).1 = tr ++ ext := by
  intro fuel
  induction fuel with
  | zero => intro k le cv tr; exact ⟨[], by simp [loopGo]⟩
  | succ n ih =>
    intro k le cv tr
    cases hg : gen k with
    | error g =>
      by_cases hn : n = 0
      · subst hn; exact ⟨[mkEntry k le], by simp [loopGo, hg]⟩
      · obtain ⟨ext, hext⟩ := ih (k + 1) (some ⟨g, "", cv⟩) cv (tr ++ [mkEntry k le])
        exact ⟨mkEntry k le :: ext, by simp [loopGo, hg, hn, hext]⟩
    | ok raw =>
      cases he : execute_code (execB k) with
      | error e =>
        by_cases hn : n = 0
        · subst hn; exact ⟨[mkEntry k le], by simp [loopGo, hg, he]⟩
        · obtain ⟨ext, hext⟩ := ih (k + 1)
            (some ⟨e, "", some (clean_code (py_strip raw))⟩)
            (some (clean_code (py_strip raw))) (tr ++ [mkEntry k le])
          exact ⟨mkEntry k le :: ext, by simp [loopGo, hg, he, hn, hext]⟩
      | ok outc =>
        cases hx : expl k with
        | error x =>
          by_cases hn : n = 0
          · subst hn; exact ⟨[mkEntry k le], by simp [loopGo, hg, he, hx]⟩
          · obtain ⟨ext, hext⟩ := ih (k + 1)
              (some ⟨x, "", some (clean_code (py_strip raw))⟩)
              (some (clean_code (py_strip raw))) (tr ++ [mkEntry k le])
            exact ⟨mkEntry k le :: ext, by simp [loopGo, hg, he, hx, hn, hext]⟩
        | ok ex => exact ⟨[mkEntry k le], by simp [loopGo, hg, he, hx]⟩

theorem loopGo_trace_head (gen : Nat → Except String String) (execB : Nat → PyBehavior)
    (expl : Nat → Except String String) (fuel k : Nat) (le : Option ErrCtx)
    (cv : Option String) (tr : List GenCall) :
    ∃ rest, (loopGo gen execB expl (fuel + 1) k le cv tr).1 =
      tr ++ mkEntry k le :: rest := by
  cases hok : attempt_ok gen execB expl k with
  | true =>
    obtain ⟨raw, outc, ex, hg, he, hx, heq⟩ :=
      loopGo_succ_ok gen execB expl fuel k le cv tr hok
    exact ⟨[], by rw [heq]⟩
  | false =>
    cases fuel with
    | zero => exact ⟨[], by rw [loopGo_last_fail gen execB expl k le cv tr hok]⟩
    | succ m =>
      rw [loopGo_step_fail gen execB expl (m + 1) k le cv tr (by omega) hok]
      obtain ⟨ext, hext⟩ := loopGo_trace_mono gen execB expl (m + 1) (k + 1)
        (some ⟨attempt_fault_msg gen execB expl k, "", code_after gen cv k⟩)
        (code_after gen cv k) (tr ++ [mkEntry k le])
      exact ⟨ext, by rw [hext]; simp⟩

theorem loopGo3_fail (gen : Nat → Except String String) (execB : Nat → PyBehavior)
    (expl : Nat → Except String String)
    (h1 : attempt_ok gen execB expl 1 = false)
    (h2 : attempt_ok gen execB expl 2 = false)
    (h3 : attempt_ok gen execB expl 3 = false) :
    loopGo gen execB expl 3 1 none none [] =
      ([mkEntry 1 none,
        mkEntry 2 (some ⟨attempt_fault_msg gen execB expl 1, "", last_code gen 1⟩),
        mkEntry 3 (some ⟨attempt_fault_msg gen execB expl 2, "", last_code gen 2⟩)],
       .error (attempt_fault_msg gen execB expl 3)) := by
  have e1 : last_code gen 1 = code_after gen none 1 := rfl
  have e2 : last_code gen 2 = code_after gen (last_code gen 1) 2 := rfl
  rw [show (3 : Nat) = 2 + 1 from rfl,
    loopGo_step_fail gen execB expl 2 1 none none [] (by omega) h1,
    show (2 : Nat) = 1 + 1 from rfl,
    loopGo_step_fail gen execB expl 1 2 _ _ _ (by omega) h2,
    loopGo_last_fail gen execB expl 3 _ _ _ h3, e2, e1]
  simp

theorem attempt_ok_of_gef (gen : Nat → Except String String) (execB : Nat → PyBehavior)
    (expl : Nat → Except String String) (j : Nat)
    (h : gen_or_exec_fault gen execB j = true) :
    attempt_ok gen execB expl j = false := by
  unfold gen_or_exec_fault at h
  unfold attempt_ok
  cases hg : isOkE (gen j) <;> cases he : isOkE (execute_code (execB j)) <;>
    simp_all

/-! ## C1 -/

/-- C1: the dict built by `_execute_code` holds exactly the whitelist (here
with no tables), but because `__builtins__` is not set, CPython's `exec`
injects the full builtins module, so names such as `open` and `__import__`
are reachable from the executed code even though they are not in the
whitelist. -/
theorem sandbox_builtins_reachable :
    ((build_globals []).map Prod.fst =
      ["pd", "np", "json", "print", "len", "sum", "min", "max", "round",
       "abs", "float", "int", "str", "list", "dict"]) ∧
    "open" ∈ reachable_names (exec_effective_globals (build_globals [])) ∧
    "open" ∉ (build_globals []).map Prod.fst ∧
    "__import__" ∈ reachable_names (exec_effective_globals (build_globals [])) ∧
    "__import__" ∉ (build_globals []).map Prod.fst := by
  decide

/-! ## C2 -/

/-- C2 counterexample: when the table source cannot be read, `analyze` does
not raise; it returns an AnalysisResult dict with the loader fault encoded in
its `error` field and `success == false` (the outer handler of lines
118-125), contradicting the claim that the fault is raised to the caller and
not encoded inside a returned result. -/
theorem loader_fault_encoded_cx :
    (analyze "q" (.error "[Errno 2] No such file or directory: report.xlsx")
        genAllFail execFailB explFail).2.lookup "error" =
      some (.s "[Errno 2] No such file or directory: report.xlsx") ∧
    (analyze "q" (.error "[Errno 2] No such file or directory: report.xlsx")
        genAllFail execFailB explFail).2.lookup "success" = some (.b false) := by
  exact ⟨rfl, rfl⟩

/-- C2 (amended): a loader fault still occurs before any attempt — zero
generation calls, no retry — but `analyze` catches it and returns the failure
dict with the fault message in `error`, instead of raising; and there is no
EmptyTableSet fault: whenever the source loads (even as all-empty tables),
at least one generation call is made. -/
theorem loader_fault_behavior (q m : String) (tables : List (String × Nat))
    (gen : Nat → Except String String) (execB : Nat → PyBehavior)
    (expl : Nat → Except String String) :
    analyze q (.error m) gen execB expl = ([], failDict q m) ∧
    (analyze q (.ok tables) gen execB expl).1 ≠ [] := by
  constructor
  · rfl
  · obtain ⟨rest, hres⟩ := loopGo_trace_head gen execB expl 2 1 none none []
    unfold analyze
    rcases hl : loopGo gen execB expl max_attempts 1 none none [] with ⟨tr, r⟩
    have htr : tr = mkEntry 1 none :: rest := by
      have := hres
      rw [show (2 : Nat) + 1 = max_attempts from rfl, hl] at this
      simpa using this
    cases r <;> simp [htr]

/-! ## C4 -/

/-- C4 counterexample: an in-place mutation of a table object by one attempt
(`GenEff.inplace` on the table's reference) IS observable when a later attempt
reads the same binding from its freshly built scope: the scope dict is a
shallow copy, the objects are shared. -/
theorem table_mutation_leaks_cx :
    read_binding [("income_statement", 100)]
        (run_attempt [("income_statement", 100)] [.inplace 100 7] fun _ => 0)
        "income_statement" ≠
      read_binding [("income_statement", 100)] (fun _ => 0) "income_statement" := by
  decide

/-- C4 (amended): each attempt's binding scope is a fresh SHALLOW copy of the
baseline, so attempts that only rebind names leave the object store — hence
everything any later attempt can observe — completely unchanged; object
values themselves (tables included) are shared by reference and in-place
mutations do persist. -/
theorem rebind_isolated (tables : List (String × Nat)) (effs : List GenEff)
    (st : Store) (h : ∀ e ∈ effs, ∃ n r, e = .rebind n r) :
    run_attempt tables effs st = st := by
  unfold run_attempt
  have key : ∀ (fs : List GenEff), (∀ e ∈ fs, ∃ n r, e = .rebind n r) →
      ∀ sc : List (String × Nat), (fs.foldl apply_eff (sc, st)).2 = st := by
    intro fs
    induction fs with
    | nil => intro _ sc; rfl
    | cons e es ih =>
      intro hh sc
      obtain ⟨n, r, he⟩ := hh e (List.mem_cons_self e es)
      subst he
      simp only [List.foldl_cons, apply_eff]
      exact ih (fun x hx => hh x (List.mem_cons_of_mem _ hx)) _
  exact key effs h _

/-- C4 witness: a rebind-only attempt leaves the store untouched. -/
theorem rebind_isolated_witness :
    run_attempt [("t", 100)] [.rebind "x" 5] (fun _ => 0) = (fun _ => 0) := by
  exact rebind_isolated [("t", 100)] [.rebind "x" 5] (fun _ => 0)
    (by intro e he; simp only [List.mem_singleton] at he; exact ⟨"x", 5, he⟩)

/-! ## C5 -/

/-- C5 counterexample: on a runtime fault of the executed code,
`_execute_code` does not return a failed ExecutionOutcome — it raises
(lines 399-403), so its result is not a normal return. -/
theorem sandbox_raises_cx :
    isOkE (execute_code (Except.error ("division by zero", "Traceback: ..."))) =
      false := by
  rfl

/-- C5 (amended): `_execute_code` catches the runtime fault and re-raises a
single enriched exception carrying the fault message and the traceback; the
retry controller catches that exception, so the fault never escapes
`analyze`, which still returns a well-formed failure dict. -/
theorem sandbox_fault_contained (m t q : String) (tables : List (String × Nat))
    (gen : Nat → Except String String) (execB : Nat → PyBehavior)
    (expl : Nat → Except String String)
    (hexec : ∀ j, isOkE (execute_code (execB j)) = false) :
    execute_code (Except.error (m, t)) =
      .error ("Code execution error: " ++ m ++ "\n\nTraceback:\n" ++ t) ∧
    (analyze q (.ok tables) gen execB expl).2.lookup "success" =
      some (.b false) := by
  refine ⟨rfl, ?_⟩
  have hfail : ∀ j, attempt_ok gen execB expl j = false := by
    intro j
    unfold attempt_ok
    rw [hexec j]
    simp
  unfold analyze
  rw [show max_attempts = 3 from rfl,
    loopGo3_fail gen execB expl (hfail 1) (hfail 2) (hfail 3)]
  rfl

/-- C5 witness. -/
theorem sandbox_fault_contained_witness :
    execute_code (Except.error ("division by zero", "tb")) =
      .error ("Code execution error: " ++ "division by zero" ++
        "\n\nTraceback:\n" ++ "tb") ∧
    (analyze "q" (.ok [("t", 0)]) genOk execFailB explOkO).2.lookup "success" =
      some (.b false) := by
  exact sandbox_fault_contained "division by zero" "tb" "q" [("t", 0)]
    genOk execFailB explOkO (fun j => rfl)

/-! ## C9 -/

/-- C9: when the tables load and generation or execution faults on all three
attempts, `analyze` returns the failure dict: `success == false`,
`attempts == 3`, and `error` is verbatim the fault message raised by the
third attempt. -/
theorem exhausted_returns_last_error (q : String) (tables : List (String × Nat))
    (gen : Nat → Except String String) (execB : Nat → PyBehavior)
    (expl : Nat → Except String String)
    (h : ∀ j, 1 ≤ j → j ≤ 3 → gen_or_exec_fault gen execB j = true) :
    (analyze q (.ok tables) gen execB expl).1.length = 3 ∧
    (analyze q (.ok tables) gen execB expl).2 =
      failDict q (attempt_fault_msg gen execB expl 3) ∧
    (analyze q (.ok tables) gen execB expl).2.lookup "success" =
      some (.b false) ∧
    (analyze q (.ok tables) gen execB expl).2.lookup "attempts" =
      some (.n 3) ∧
    (analyze q (.ok tables) gen execB expl).2.lookup "error" =
      some (.s (attempt_fault_msg gen execB expl 3)) := by
  have hfail : ∀ j, 1 ≤ j → j ≤ 3 → attempt_ok gen execB expl j = false :=
    fun j hj1 hj3 => attempt_ok_of_gef gen execB expl j (h j hj1 hj3)
  have hrun : analyze q (.ok tables) gen execB expl =
      ([mkEntry 1 none,
        mkEntry 2 (some ⟨attempt_fault_msg gen execB expl 1, "", last_code gen 1⟩),
        mkEntry 3 (some ⟨attempt_fault_msg gen execB expl 2, "", last_code gen 2⟩)],
       failDict q (attempt_fault_msg gen execB expl 3)) := by
    unfold analyze
    rw [show max_attempts = 3 from rfl,
      loopGo3_fail gen execB expl (hfail 1 (by omega) (by omega))
        (hfail 2 (by omega) (by omega)) (hfail 3 (by omega) (by omega))]
  rw [hrun]
  exact ⟨rfl, rfl, rfl, rfl, rfl⟩

/-- C9 witness: generation succeeds, execution faults on every attempt; the
returned error is the enriched message of attempt 3. -/
theorem exhausted_witness :
    (analyze "q" (.ok [("t", 0)]) genOk execFailB explOkO).1.length = 3 ∧
    (analyze "q" (.ok [("t", 0)]) genOk execFailB explOkO).2 =
      failDict "q" (attempt_fault_msg genOk execFailB explOkO 3) ∧
    (analyze "q" (.ok [("t", 0)]) genOk execFailB explOkO).2.lookup "success" =
      some (.b false) ∧
    (analyze "q" (.ok [("t", 0)]) genOk execFailB explOkO).2.lookup "attempts" =
      some (.n 3) ∧
    (analyze "q" (.ok [("t", 0)]) genOk execFailB explOkO).2.lookup "error" =
      some (.s (attempt_fault_msg genOk execFailB explOkO 3)) := by
  exact exhausted_returns_last_error "q" [("t", 0)] genOk execFailB explOkO
    (by intro j h1 h3; interval_cases j <;> rfl)

/-! ## C10 -/

/-- C10 counterexample: the success dict has exactly six fields — no `error`
key — and the failure dict has exactly five — no `code` and no `result` key;
so no returned AnalysisResult carries all seven claimed fields. -/
theorem result_fields_cx :
    ((analyze "q" (.ok [("t", 0)]) genOk execOkB explOkO).2.map Prod.fst =
      ["success", "query", "code", "result", "explanation", "attempts"]) ∧
    "error" ∉ (analyze "q" (.ok [("t", 0)]) genOk execOkB explOkO).2.map Prod.fst ∧
    ((analyze "q" (.error "nope") genOk execOkB explOkO).2.map Prod.fst =
      ["success", "query", "error", "explanation", "attempts"]) ∧
    "code" ∉ (analyze "q" (.error "nope") genOk execOkB explOkO).2.map Prod.fst ∧
    "result" ∉ (analyze "q" (.error "nope") genOk execOkB explOkO).2.map Prod.fst := by
  refine ⟨rfl, ?_, rfl, ?_, ?_⟩ <;> decide

/-- C10 (amended): every `analyze` return is one of exactly two dict shapes:
the success shape `{success, query, code, result, explanation, attempts}`
(no `error` field) or the failure shape
`{success, query, error, explanation, attempts}` (no `code`/`result`
fields). -/
theorem result_shape (q : String) (load : Except String (List (String × Nat)))
    (gen : Nat → Except String String) (execB : Nat → PyBehavior)
    (expl : Nat → Except String String) :
    (analyze q load gen execB expl).2.map Prod.fst =
      ["success", "query", "code", "result", "explanation", "attempts"] ∨
    (analyze q load gen execB expl).2.map Prod.fst =
      ["success", "query", "error", "explanation", "attempts"] := by
  unfold analyze
  cases load with
  | error m => right; rfl
  | ok tables =>
    rcases loopGo gen execB expl max_attempts 1 none none [] with ⟨tr, r⟩
    cases r with
    | ok sr => left; rfl
    | error m => right; rfl

theorem analyze_trace (q : String) (tables : List (String × Nat))
    (gen : Nat → Except String String) (execB : Nat → PyBehavior)
    (expl : Nat → Except String String) :
    (analyze q (.ok tables) gen execB expl).1 =
      (loopGo gen execB expl max_attempts 1 none none []).1 := by
  unfold analyze
  rcases loopGo gen execB expl max_attempts 1 none none [] with ⟨tr, r⟩
  cases r <;> rfl

/-! ## C3 -/

/-- C3 counterexample: execution succeeds on attempt 1 (third conjunct), yet
because `_generate_explanation` is called inside the loop's `try` (line 93)
its failure counts as a failed attempt: two further generation attempts are
made (trace length 3) and `analyze` returns `success == false` — the
explanation failure does invalidate the result. -/
theorem explanation_failure_cx :
    (analyze "q" (.ok [("t", 0)]) genOk execOkB explFail).2.lookup "success" =
      some (.b false) ∧
    (analyze "q" (.ok [("t", 0)]) genOk execOkB explFail).1.length = 3 ∧
    isOkE (execute_code (execOkB 1)) = true := by
  exact ⟨rfl, rfl, rfl⟩

/-- C3 (amended): once an attempt's execution AND its subsequent explanation
call both succeed, no further attempts are made: `analyze` returns the
success dict with `attempts` equal to that attempt's index and the trace
stops there.  (When the explanation call fails, the attempt is retried; an
explanation failure on the final attempt fails the whole analysis.) -/
theorem success_requires_explanation (q : String) (tables : List (String × Nat))
    (gen : Nat → Except String String) (execB : Nat → PyBehavior)
    (expl : Nat → Except String String) (k : Nat) (hk1 : 1 ≤ k) (hk3 : k ≤ 3)
    (hprev : ∀ j, 1 ≤ j → j < k → attempt_ok gen execB expl j = false)
    (hcur : attempt_ok gen execB expl k = true) :
    ∃ raw outc ex, gen k = .ok raw ∧ execute_code (execB k) = .ok outc ∧
      expl k = .ok ex ∧
      (analyze q (.ok tables) gen execB expl).1.length = k ∧
      (analyze q (.ok tables) gen execB expl).2 =
        successDict q ⟨clean_code (py_strip raw), outc, ex, k⟩ := by
  interval_cases k
  · obtain ⟨raw, outc, ex, hg, he, hx, heq⟩ :=
      loopGo_succ_ok gen execB expl 2 1 none none [] hcur
    refine ⟨raw, outc, ex, hg, he, hx, ?_, ?_⟩ <;>
      (unfold analyze; rw [show max_attempts = 3 from rfl, heq]; try rfl)
  · have h1 := hprev 1 (by omega) (by omega)
    obtain ⟨raw, outc, ex, hg, he, hx, heq⟩ :=
      loopGo_succ_ok gen execB expl 1 2
        (some ⟨attempt_fault_msg gen execB expl 1, "", code_after gen none 1⟩)
        (code_after gen none 1) [mkEntry 1 none] hcur
    have hchain : loopGo gen execB expl 3 1 none none [] =
        ([mkEntry 1 none,
          mkEntry 2 (some ⟨attempt_fault_msg gen execB expl 1, "",
            code_after gen none 1⟩)],
         .ok ⟨clean_code (py_strip raw), outc, ex, 2⟩) := by
      rw [show (3 : Nat) = 2 + 1 from rfl,
        loopGo_step_fail gen execB expl 2 1 none none [] (by omega) h1]
      simp only [List.nil_append]
      rw [heq]
      simp
    refine ⟨raw, outc, ex, hg, he, hx, ?_, ?_⟩ <;>
      (unfold analyze; rw [show max_attempts = 3 from rfl, hchain]; try rfl)
  · have h1 := hprev 1 (by omega) (by omega)
    have h2 := hprev 2 (by omega) (by omega)
    obtain ⟨raw, outc, ex, hg, he, hx, heq⟩ :=
      loopGo_succ_ok gen execB expl 0 3
        (some ⟨attempt_fault_msg gen execB expl 2, "",
          code_after gen (code_after gen none 1) 2⟩)
        (code_after gen (code_after gen none 1) 2)
        [mkEntry 1 none,
         mkEntry 2 (some ⟨attempt_fault_msg gen execB expl 1, "",
           code_after gen none 1⟩)] hcur
    have hchain : loopGo gen execB expl 3 1 none none [] =
        ([mkEntry 1 none,
          mkEntry 2 (some ⟨attempt_fault_msg gen execB expl 1, "",
            code_after gen none 1⟩),
          mkEntry 3 (some ⟨attempt_fault_msg gen execB expl 2, "",
            code_after gen (code_after gen none 1) 2⟩)],
         .ok ⟨clean_code (py_strip raw), outc, ex, 3⟩) := by
      rw [show (3 : Nat) = 2 + 1 from rfl,
        loopGo_step_fail gen execB expl 2 1 none none [] (by omega) h1]
      simp only [List.nil_append]
      rw [loopGo_step_fail gen execB expl 1 2 _ _ _ (by omega) h2]
      simp only [List.cons_append, List.nil_append]
      rw [heq]
      simp
    refine ⟨raw, outc, ex, hg, he, hx, ?_, ?_⟩ <;>
      (unfold analyze; rw [show max_attempts = 3 from rfl, hchain]; try rfl)

/-- C3 witness: attempt 1 faults at generation, attempt 2 executes and
explains successfully: success with `attempts == 2` and exactly two
generation calls. -/
theorem success_requires_explanation_witness :
    ∃ raw outc ex, genW3 2 = .ok raw ∧ execute_code (execOkB 2) = .ok outc ∧
      explOkO 2 = .ok ex ∧
      (analyze "q" (.ok [("t", 0)]) genW3 execOkB explOkO).1.length = 2 ∧
      (analyze "q" (.ok [("t", 0)]) genW3 execOkB explOkO).2 =
        successDict "q" ⟨clean_code (py_strip raw), outc, ex, 2⟩ := by
  exact success_requires_explanation "q" [("t", 0)] genW3 execOkB explOkO 2
    (by omega) (by omega) (by intro j hj1 hj2; interval_cases j; rfl) rfl

/-! ## C8 -/

/-- C8 counterexample: attempt 1 generates `x = 1` and faults in execution;
attempt 2 faults at generation (no code produced, third conjunct); yet the
prompt of attempt 3 pairs attempt 2's error with attempt 1's code — the stale
`code` local of `'code' in locals()` (line 108) — so the code text included
is that of an EARLIER attempt, not of the immediately preceding one. -/
theorem stale_code_cx :
    ((analyze "q" (.ok [("t", 0)]) genC8 execC8 explOkO).1.get? 2).map
        GenCall.priorInPrompt =
      some (some ⟨"gen fault 2", "", some "x = 1"⟩) ∧
    genC8 1 = .ok "x = 1" ∧
    isOkE (genC8 2) = false := by
  exact ⟨rfl, rfl, rfl⟩

/-- C8 (amended): every retry prompt (attempt `k ≥ 2`) includes the
immediately preceding attempt's exact error message together with the MOST
RECENTLY generated code text (which is the preceding attempt's code whenever
that attempt produced code, but survives from an earlier attempt when the
preceding attempt faulted during generation), and its generation temperature
(0.1) is strictly lower than attempt 1's (0.2); attempt 1's prompt has no
prior-failure section. -/
theorem retry_prompt_contents (q : String) (tables : List (String × Nat))
    (gen : Nat → Except String String) (execB : Nat → PyBehavior)
    (expl : Nat → Except String String) (k : Nat) (hk2 : 2 ≤ k) (hk3 : k ≤ 3)
    (hprev : ∀ j, 1 ≤ j → j < k → attempt_ok gen execB expl j = false) :
    ∃ e1 ek, (analyze q (.ok tables) gen execB expl).1.get? 0 = some e1 ∧
      (analyze q (.ok tables) gen execB expl).1.get? (k - 1) = some ek ∧
      e1.priorInPrompt = none ∧ e1.temperatureTenths = 2 ∧
      ek.priorInPrompt =
        some ⟨attempt_fault_msg gen execB expl (k - 1), "",
          last_code gen (k - 1)⟩ ∧
      ek.temperatureTenths = 1 ∧
      ek.temperatureTenths < e1.temperatureTenths := by
  rw [analyze_trace, show max_attempts = 3 from rfl]
  interval_cases k
  · have h1 := hprev 1 (by omega) (by omega)
    have hstep : loopGo gen execB expl 3 1 none none [] =
        loopGo gen execB expl 2 2
          (some ⟨attempt_fault_msg gen execB expl 1, "", code_after gen none 1⟩)
          (code_after gen none 1) [mkEntry 1 none] := by
      rw [show (3 : Nat) = 2 + 1 from rfl,
        loopGo_step_fail gen execB expl 2 1 none none [] (by omega) h1]
      simp
    obtain ⟨rest, hrest⟩ := loopGo_trace_head gen execB expl 1 2
      (some ⟨attempt_fault_msg gen execB expl 1, "", code_after gen none 1⟩)
      (code_after gen none 1) [mkEntry 1 none]
    refine ⟨mkEntry 1 none,
      mkEntry 2 (some ⟨attempt_fault_msg gen execB expl 1, "",
        code_after gen none 1⟩), ?_, ?_, rfl, rfl, rfl, rfl, by simp [mkEntry]⟩
    · rw [hstep]
      rw [show (2 : Nat) = 1 + 1 from rfl] at hrest ⊢
      rw [hrest]
      rfl
    · rw [hstep]
      rw [show (2 : Nat) = 1 + 1 from rfl] at hrest ⊢
      rw [hrest]
      rfl
  · have h1 := hprev 1 (by omega) (by omega)
    have h2 := hprev 2 (by omega) (by omega)
    have hstep : loopGo gen execB expl 3 1 none none [] =
        loopGo gen execB expl 1 3
          (some ⟨attempt_fault_msg gen execB expl 2, "",
            code_after gen (code_after gen none 1) 2⟩)
          (code_after gen (code_after gen none 1) 2)
          [mkEntry 1 none,
           mkEntry 2 (some ⟨attempt_fault_msg gen execB expl 1, "",
             code_after gen none 1⟩)] := by
      rw [show (3 : Nat) = 2 + 1 from rfl,
        loopGo_step_fail gen execB expl 2 1 none none [] (by omega) h1]
      simp only [List.nil_append]
      rw [loopGo_step_fail gen execB expl 1 2 _ _ _ (by omega) h2]
      simp
    obtain ⟨rest, hrest⟩ := loopGo_trace_head gen execB expl 0 3
      (some ⟨attempt_fault_msg gen execB expl 2, "",
        code_after gen (code_after gen none 1) 2⟩)
      (code_after gen (code_after gen none 1) 2)
      [mkEntry 1 none,
       mkEntry 2 (some ⟨attempt_fault_msg gen execB expl 1, "",
         code_after gen none 1⟩)]
    refine ⟨mkEntry 1 none,
      mkEntry 3 (some ⟨attempt_fault_msg gen execB expl 2, "",
        code_after gen (code_after gen none 1) 2⟩), ?_, ?_, rfl, rfl, rfl, rfl,
      by simp [mkEntry]⟩
    · rw [hstep]
      rw [show (1 : Nat) = 0 + 1 from rfl] at hrest ⊢
      rw [hrest]
      rfl
    · rw [hstep]
      rw [show (1 : Nat) = 0 + 1 from rfl] at hrest ⊢
      rw [hrest]
      rfl

/-- C8 witness: execution faults on attempts 1 and 2; attempt 3's prompt
carries attempt 2's error with the latest code, at the lowered temperature;
attempt 1's prompt has no prior-failure section. -/
theorem retry_prompt_witness :
    ∃ e1 ek, (analyze "q" (.ok [("t", 0)]) genOk execFailB explOkO).1.get? 0 =
        some e1 ∧
      (analyze "q" (.ok [("t", 0)]) genOk execFailB explOkO).1.get? (3 - 1) =
        some ek ∧
      e1.priorInPrompt = none ∧ e1.temperatureTenths = 2 ∧
      ek.priorInPrompt =
        some ⟨attempt_fault_msg genOk execFailB explOkO (3 - 1), "",
          last_code genOk (3 - 1)⟩ ∧
      ek.temperatureTenths = 1 ∧
      ek.temperatureTenths < e1.temperatureTenths := by
  exact retry_prompt_contents "q" [("t", 0)] genOk execFailB explOkO 3
    (by omega) (by omega) (by intro j hj1 hj2; interval_cases j <;> rfl)

/-- C6: for a tabular result with more than 100 rows, `_serialize_result`
returns exactly the first 100 rows as records (a list of length 100), and a
tabular result with at most 100 rows is converted in full. -/
theorem result_cap (rows rowsSmall : List (List (String × Prim)))
    (h : 100 < rows.length) (hs : rowsSmall.length ≤ 100) :
    serialize_result (.dataframe rows) = .pylist ((rows.take 100).map dfRecord) ∧
    ((rows.take 100).map dfRecord).length = 100 ∧
    serialize_result (.dataframe rowsSmall) = .pylist (rowsSmall.map dfRecord) := by
  refine ⟨?_, ?_, ?_⟩
  · simp only [serialize_result, if_pos (by omega : rows.length > 100)]
  · simp only [List.length_map, List.length_take]
    omega
  · simp only [serialize_result, if_neg (by omega : ¬ rowsSmall.length > 100)]

/-- C6 witness: a 500-row table normalizes to exactly 100 rows; a 3-row table
is converted in full. -/
theorem result_cap_witness :
    serialize_result (.dataframe (List.replicate 500 [])) =
      .pylist (((List.replicate 500 ([] : List (String × Prim))).take 100).map dfRecord) ∧
    (((List.replicate 500 ([] : List (String × Prim))).take 100).map dfRecord).length = 100 ∧
    serialize_result (.dataframe (List.replicate 3 [])) =
      .pylist ((List.replicate 3 ([] : List (String × Prim))).map dfRecord) := by
  exact result_cap (List.replicate 500 []) (List.replicate 3 [])
    (by rw [List.length_replicate]; omega) (by rw [List.length_replicate]; omega)

/-! ## Sanitizer proofs, part 1: line splitting and joining -/

theorem splitLines_ne_nil (s : List Char) : splitLines s ≠ [] := by
  cases s with
  | nil => simp [splitLines]
  | cons c cs =>
    by_cases h : c = '\n'
    · simp [splitLines, h]
    · simp only [splitLines, if_neg h]
      rcases hs : splitLines cs with _ | ⟨h1, t1⟩ <;> simp

theorem joinLines_splitLines (s : List Char) : joinLines (splitLines s) = s := by
  induction s with
  | nil => rfl
  | cons c cs ih =>
    by_cases h : c = '\n'
    · subst h
      rcases hs : splitLines cs with _ | ⟨h1, t1⟩
      · exact absurd hs (splitLines_ne_nil cs)
      · rw [hs] at ih
        simp only [splitLines, if_pos rfl, hs]
        show joinLines ([] :: h1 :: t1) = '\n' :: cs
        simp only [joinLines]
        rw [List.nil_append, ih]
    · rcases hs : splitLines cs with _ | ⟨h1, t1⟩
      · exact absurd hs (splitLines_ne_nil cs)
      · rw [hs] at ih
        simp only [splitLines, if_neg h, hs]
        cases t1 with
        | nil =>
          show joinLines [c :: h1] = c :: cs
          simp only [joinLines] at ih ⊢
          rw [ih]
        | cons t2 ts =>
          show joinLines ((c :: h1) :: t2 :: ts) = c :: cs
          simp only [joinLines] at ih ⊢
          rw [List.cons_append, ih]

theorem splitLines_append (x y : List Char) :
    ∃ xs xl yh ys, splitLines x = xs ++ [xl] ∧ splitLines y = yh :: ys ∧
      splitLines (x ++ y) = xs ++ (xl ++ yh) :: ys := by
  induction x with
  | nil =>
    rcases hy : splitLines y with _ | ⟨yh, ys⟩
    · exact absurd hy (splitLines_ne_nil y)
    · exact ⟨[], [], yh, ys, rfl, rfl, by simpa using hy⟩
  | cons c x' ih =>
    obtain ⟨xs, xl, yh, ys, hx, hy, hxy⟩ := ih
    by_cases h : c = '\n'
    · subst h
      refine ⟨[] :: xs, xl, yh, ys, ?_, hy, ?_⟩
      · simp [splitLines, hx]
      · show splitLines ('\n' :: (x' ++ y)) = ([] :: xs) ++ (xl ++ yh) :: ys
        simp [splitLines, hxy]
    · cases xs with
      | nil =>
        refine ⟨[], c :: xl, yh, ys, ?_, hy, ?_⟩
        · rw [List.nil_append] at hx
          simp [splitLines, h, hx]
        · rw [List.nil_append] at hxy
          show splitLines (c :: (x' ++ y)) = [] ++ ((c :: xl) ++ yh) :: ys
          simp [splitLines, h, hxy]
      | cons x0 xs' =>
        refine ⟨(c :: x0) :: xs', xl, yh, ys, ?_, hy, ?_⟩
        · rw [List.cons_append] at hx
          simp [splitLines, h, hx]
        · rw [List.cons_append] at hxy
          show splitLines (c :: (x' ++ y)) = ((c :: x0) :: xs') ++ (xl ++ yh) :: ys
          simp [splitLines, h, hxy]

theorem mem_splitLines_no_newline {s l : List Char} (h : l ∈ splitLines s) :
    '\n' ∉ l := by
  induction s generalizing l with
  | nil =>
    simp only [splitLines, List.mem_singleton] at h
    subst h; simp
  | cons c cs ih =>
    by_cases hc : c = '\n'
    · subst hc
      simp only [splitLines, if_pos rfl] at h
      cases h with
      | head => simp
      | tail _ h2 => exact ih h2
    · cases hs : splitLines cs with
      | nil => exact absurd hs (splitLines_ne_nil cs)
      | cons h1 t1 =>
        simp only [splitLines, if_neg hc, hs, List.mem_cons] at h
        rcases h with rfl | h
        · intro hmem
          rcases List.mem_cons.mp hmem with he | hmem2
          · exact hc he.symm
          · exact ih (by rw [hs]; exact List.mem_cons_self _ _) hmem2
        · exact ih (by rw [hs]; exact List.mem_cons_of_mem _ h)

theorem mem_joinLines_within {L : List (List Char)} {l : List Char} (h : l ∈ L) :
    l <:+: joinLines L := by
  induction L with
  | nil => simp at h
  | cons a L' ih =>
    cases L' with
    | nil =>
      simp only [List.mem_singleton] at h
      subst h
      exact List.infix_rfl
    | cons b L'' =>
      rcases List.mem_cons.mp h with rfl | h2
      · exact ⟨[], '\n' :: joinLines (b :: L''), by simp [joinLines]⟩
      · have h3 := ih h2
        have h4 : joinLines (b :: L'') <:+: joinLines (a :: b :: L'') :=
          ⟨a ++ ['\n'], [], by simp [joinLines]⟩
        exact h3.trans h4

theorem mem_splitLines_within {s l : List Char} (h : l ∈ splitLines s) :
    l <:+: s := by
  have h2 := mem_joinLines_within h
  rwa [joinLines_splitLines] at h2

theorem splitLines_head (s : List Char) :
    ∃ r, splitLines s = (s.takeWhile notNL) :: r := by
  induction s with
  | nil => exact ⟨[], rfl⟩
  | cons c cs ih =>
    by_cases h : c = '\n'
    · subst h
      refine ⟨splitLines cs, ?_⟩
      simp [splitLines, List.takeWhile_cons, notNL]
    · obtain ⟨r, hr⟩ := ih
      refine ⟨r, ?_⟩
      have hn : notNL c = true := by simp [notNL, h]
      simp [splitLines, h, hr, List.takeWhile_cons, hn]

theorem splitLines_of_no_newline {s : List Char} (h : '\n' ∉ s) :
    splitLines s = [s] := by
  induction s with
  | nil => rfl
  | cons c cs ih =>
    have hc : ¬ c = '\n' := fun e => h (e ▸ List.mem_cons_self _ _)
    have h2 : splitLines cs = [cs] := ih fun m => h (List.mem_cons_of_mem _ m)
    simp [splitLines, hc, h2]

/-! ## Sanitizer proofs, part 2: stripping -/

theorem dropWhile_append_pos {p : Char → Bool} {a b : List Char}
    (h : List.dropWhile p a ≠ []) :
    List.dropWhile p (a ++ b) = List.dropWhile p a ++ b := by
  rw [List.dropWhile_append, if_neg]
  simpa using h

theorem dropWhile_append_all {p : Char → Bool} {a b : List Char}
    (h : ∀ c ∈ a, p c) : List.dropWhile p (a ++ b) = List.dropWhile p b := by
  rw [List.dropWhile_append, if_pos]
  simp [List.dropWhile_eq_nil_iff.mpr h]

theorem rdropWhile_append_all {p : Char → Bool} {a b : List Char}
    (h : ∀ c ∈ b, p c) : List.rdropWhile p (a ++ b) = List.rdropWhile p a := by
  unfold List.rdropWhile
  rw [List.reverse_append, dropWhile_append_all]
  intro c hc
  exact h c (List.mem_reverse.mp hc)

theorem rdropWhile_append_pos {p : Char → Bool} {a b : List Char}
    (h : List.rdropWhile p b ≠ []) :
    List.rdropWhile p (a ++ b) = a ++ List.rdropWhile p b := by
  unfold List.rdropWhile at h ⊢
  have h2 : List.dropWhile p b.reverse ≠ [] := by
    intro he
    rw [he] at h
    simp at h
  rw [List.reverse_append, dropWhile_append_pos h2, List.reverse_append,
    List.reverse_reverse]

theorem rdropWhile_rtakeWhile_append (p : Char → Bool) (l : List Char) :
    List.rdropWhile p l ++ List.rtakeWhile p l = l := by
  unfold List.rdropWhile List.rtakeWhile
  rw [← List.reverse_append, List.takeWhile_append_dropWhile, List.reverse_reverse]

theorem pyStrip_idem (l : List Char) : pyStrip (pyStrip l) = pyStrip l := by
  unfold pyStrip
  by_cases h : List.rdropWhile isPyWs (List.dropWhile isPyWs l) = []
  · rw [h]
    simp
  · have hd : List.dropWhile isPyWs (List.rdropWhile isPyWs (List.dropWhile isPyWs l)) =
        List.rdropWhile isPyWs (List.dropWhile isPyWs l) := by
      cases hR : List.rdropWhile isPyWs (List.dropWhile isPyWs l) with
      | nil => exact absurd hR h
      | cons r rs =>
        have hpre : List.rdropWhile isPyWs (List.dropWhile isPyWs l) <+:
            List.dropWhile isPyWs l := List.rdropWhile_prefix _ _
        rw [hR] at hpre
        obtain ⟨t, ht⟩ := hpre
        have hD : List.dropWhile isPyWs l = r :: (rs ++ t) := by
          rw [← ht]
          simp
        have hidem := List.dropWhile_idempotent isPyWs l
        rw [hD, List.dropWhile_cons] at hidem
        have hpr : ¬ isPyWs r = true := by
          intro hpr
          rw [if_pos hpr] at hidem
          have hlen := congrArg List.length hidem
          have hle : (List.dropWhile isPyWs (rs ++ t)).length ≤ (rs ++ t).length :=
            (List.dropWhile_suffix isPyWs).sublist.length_le
          simp only [List.length_cons] at hlen
          omega
        rw [List.dropWhile_cons, if_neg hpr]
    rw [hd, List.rdropWhile_idempotent]

theorem pyStrip_within (l : List Char) : pyStrip l <:+: l := by
  unfold pyStrip
  have h1 : List.rdropWhile isPyWs (List.dropWhile isPyWs l) <+:
      List.dropWhile isPyWs l := List.rdropWhile_prefix _ _
  have h2 : List.dropWhile isPyWs l <:+ l := List.dropWhile_suffix _
  exact h1.isInfix.trans h2.isInfix

theorem pyStrip_ws_pad {p q x : List Char} (hp : ∀ c ∈ p, isPyWs c)
    (hq : ∀ c ∈ q, isPyWs c) : pyStrip (p ++ x ++ q) = pyStrip x := by
  unfold pyStrip
  rw [List.append_assoc, dropWhile_append_all hp]
  by_cases h : List.dropWhile isPyWs x = []
  · have hx : ∀ c ∈ x, isPyWs c := List.dropWhile_eq_nil_iff.mp h
    rw [dropWhile_append_all hx, List.dropWhile_eq_nil_iff.mpr hq, h]
  · rw [dropWhile_append_pos h, rdropWhile_append_all hq]

theorem pyStrip_dropWhile (l : List Char) :
    pyStrip (List.dropWhile isPyWs l) = pyStrip l := by
  unfold pyStrip
  rw [List.dropWhile_idempotent]

theorem exists_strip_decomp (s : List Char) :
    ∃ a b, (∀ c ∈ a, isPyWs c) ∧ (∀ c ∈ b, isPyWs c) ∧
      s = a ++ pyStrip s ++ b := by
  refine ⟨List.takeWhile isPyWs s, List.rtakeWhile isPyWs (List.dropWhile isPyWs s),
    fun c hc => List.mem_takeWhile_imp hc,
    fun c hc => List.mem_rtakeWhile_imp hc, ?_⟩
  unfold pyStrip
  rw [List.append_assoc, rdropWhile_rtakeWhile_append,
    List.takeWhile_append_dropWhile]

theorem predLine_congr {a b : List Char} (h : pyStrip a = pyStrip b) :
    predLine a = predLine b := by
  unfold predLine
  rw [h]

/-! ## Sanitizer proofs, part 3: the line scan -/

theorem findCodeStart_eq_none_iff {L : List (List Char)} :
    findCodeStart L = none ↔ ∀ l ∈ L, predLine l = false := by
  induction L with
  | nil => simp [findCodeStart]
  | cons a L' ih =>
    by_cases h : predLine a = true
    · simp [findCodeStart, h]
    · rw [show findCodeStart (a :: L') = (findCodeStart L').map (· + 1) from by
        simp [findCodeStart, h]]
      rw [Option.map_eq_none', ih]
      constructor
      · intro hall l hl
        rcases List.mem_cons.mp hl with rfl | hl2
        · exact Bool.eq_false_iff.mpr h
        · exact hall l hl2
      · intro hall l hl
        exact hall l (List.mem_cons_of_mem _ hl)

theorem findCodeStart_some_drop {L : List (List Char)} {i : Nat}
    (h : findCodeStart L = some i) :
    ∃ ℓ rest, L.drop i = ℓ :: rest ∧ predLine ℓ = true := by
  induction L generalizing i with
  | nil => simp [findCodeStart] at h
  | cons a L' ih =>
    by_cases ha : predLine a = true
    · simp only [findCodeStart, if_pos ha, Option.some.injEq] at h
      subst h
      exact ⟨a, L', rfl, ha⟩
    · simp only [findCodeStart, if_neg ha] at h
      rcases ho : findCodeStart L' with _ | j
      · rw [ho] at h
        simp at h
      · rw [ho] at h
        simp only [Option.map_some', Option.some.injEq] at h
        subst h
        obtain ⟨ℓ, rest, hd, hp⟩ := ih ho
        exact ⟨ℓ, rest, by simpa using hd, hp⟩

theorem findCodeStart_cons_true {a : List Char} {L : List (List Char)}
    (h : predLine a = true) : findCodeStart (a :: L) = some 0 := by
  simp [findCodeStart, h]

/-! ## Sanitizer proofs, part 4: lines of a stripped text -/

theorem lines_left_pad {a m : List Char} (ha : ∀ c ∈ a, isPyWs c) :
    ∀ ℓ ∈ splitLines m, ∃ ℓ2 ∈ splitLines (a ++ m), pyStrip ℓ2 = pyStrip ℓ := by
  intro ℓ hℓ
  obtain ⟨xs, xl, yh, ys, hx, hy, hxy⟩ := splitLines_append a m
  rw [hy] at hℓ
  rcases List.mem_cons.mp hℓ with rfl | h2
  · refine ⟨xl ++ ℓ, ?_, ?_⟩
    · rw [hxy]
      exact List.mem_append.mpr (Or.inr (List.mem_cons_self _ _))
    · have hxl : ∀ c ∈ xl, isPyWs c := by
        intro c hc
        have hmem : xl ∈ splitLines a := by
          rw [hx]
          exact List.mem_append.mpr (Or.inr (List.mem_cons_self _ _))
        exact ha c ((mem_splitLines_within hmem).subset hc)
      have hpad := pyStrip_ws_pad (x := ℓ) hxl
        (q := []) (by intro c hc; simp at hc)
      simpa using hpad
  · exact ⟨ℓ, by
      rw [hxy]
      exact List.mem_append.mpr (Or.inr (List.mem_cons_of_mem _ h2)), rfl⟩

theorem lines_right_pad {m b : List Char} (hb : ∀ c ∈ b, isPyWs c) :
    ∀ ℓ ∈ splitLines m, ∃ ℓ2 ∈ splitLines (m ++ b), pyStrip ℓ2 = pyStrip ℓ := by
  intro ℓ hℓ
  obtain ⟨xs, xl, yh, ys, hx, hy, hxy⟩ := splitLines_append m b
  rw [hx] at hℓ
  rcases List.mem_append.mp hℓ with h2 | h2
  · exact ⟨ℓ, by
      rw [hxy]
      exact List.mem_append.mpr (Or.inl h2), rfl⟩
  · have hℓxl : ℓ = xl := by simpa using h2
    subst hℓxl
    refine ⟨ℓ ++ yh, by rw [hxy]; exact List.mem_append.mpr (Or.inr (List.mem_cons_self _ _)), ?_⟩
    have hyh : ∀ c ∈ yh, isPyWs c := by
      intro c hc
      have hmem : yh ∈ splitLines b := by
        rw [hy]
        exact List.mem_cons_self _ _
      exact hb c ((mem_splitLines_within hmem).subset hc)
    have hpad := pyStrip_ws_pad (p := []) (x := ℓ) (by intro c hc; simp at hc) hyh
    simpa using hpad

theorem lines_strip_transfer {s : List Char} :
    ∀ ℓ ∈ splitLines (pyStrip s), ∃ ℓ2 ∈ splitLines s, pyStrip ℓ2 = pyStrip ℓ := by
  intro ℓ hℓ
  obtain ⟨a, b, ha, hb, hs⟩ := exists_strip_decomp s
  obtain ⟨ℓ1, hℓ1, he1⟩ := lines_right_pad hb ℓ hℓ
  obtain ⟨ℓ2, hℓ2, he2⟩ := lines_left_pad ha ℓ1 hℓ1
  refine ⟨ℓ2, ?_, by rw [he2, he1]⟩
  rw [hs, List.append_assoc]
  exact hℓ2

theorem splitLines_append_newline {d w : List Char} (hd : '\n' ∉ d) :
    splitLines (d ++ '\n' :: w) = d :: splitLines w := by
  induction d with
  | nil => simp [splitLines]
  | cons c d2 ih =>
    have hc : ¬ c = '\n' := fun e => hd (e ▸ List.mem_cons_self _ _)
    have h2 := ih fun m => hd (List.mem_cons_of_mem _ m)
    simp [splitLines, hc, h2]

theorem strip_head_line {s : List Char} (h : pyStrip (s.takeWhile notNL) ≠ []) :
    ∃ ℓ2 r, splitLines (pyStrip s) = ℓ2 :: r ∧
      pyStrip ℓ2 = pyStrip (s.takeWhile notNL) := by
  have hsplit : s.takeWhile notNL ++ s.dropWhile notNL = s :=
    List.takeWhile_append_dropWhile notNL s
  have hnl0 : '\n' ∉ s.takeWhile notNL := by
    intro hm
    have := List.mem_takeWhile_imp hm
    simp [notNL] at this
  have hdne : List.dropWhile isPyWs (s.takeWhile notNL) ≠ [] := by
    intro he
    apply h
    unfold pyStrip
    rw [he]
    simp
  have hstrip : pyStrip s =
      List.rdropWhile isPyWs
        (List.dropWhile isPyWs (s.takeWhile notNL) ++ s.dropWhile notNL) := by
    conv_lhs => rw [← hsplit]
    unfold pyStrip
    rw [dropWhile_append_pos hdne]
  have hnl1 : '\n' ∉ List.dropWhile isPyWs (s.takeWhile notNL) := by
    intro hm
    exact hnl0 ((List.dropWhile_suffix isPyWs).subset hm)
  by_cases hrest : List.rdropWhile isPyWs (s.dropWhile notNL) = []
  · have hall : ∀ c ∈ s.dropWhile notNL, isPyWs c :=
      List.rdropWhile_eq_nil_iff.mp hrest
    have hps : pyStrip s = pyStrip (s.takeWhile notNL) := by
      rw [hstrip, rdropWhile_append_all hall]
      rfl
    refine ⟨pyStrip (s.takeWhile notNL), [], ?_, pyStrip_idem _⟩
    rw [hps]
    apply splitLines_of_no_newline
    intro hm
    exact hnl0 ((pyStrip_within (s.takeWhile notNL)).subset hm)
  · have hrw : pyStrip s =
        List.dropWhile isPyWs (s.takeWhile notNL) ++
          List.rdropWhile isPyWs (s.dropWhile notNL) := by
      rw [hstrip, rdropWhile_append_pos hrest]
    cases hR : List.rdropWhile isPyWs (s.dropWhile notNL) with
    | nil => exact absurd hR hrest
    | cons r1 r1s =>
      have hpre : List.rdropWhile isPyWs (s.dropWhile notNL) <+: s.dropWhile notNL :=
        List.rdropWhile_prefix _ _
      rw [hR] at hpre
      obtain ⟨t, ht⟩ := hpre
      have hrestne : s.dropWhile notNL ≠ [] := by
        rw [← ht]
        simp
      have hr1 : r1 = '\n' := by
        have hh := List.head_dropWhile_not notNL s hrestne
        have hr : (s.dropWhile notNL).head hrestne = r1 := by
          have hD : s.dropWhile notNL = r1 :: (r1s ++ t) := by
            rw [← ht]
            simp
          simp [hD]
        rw [hr] at hh
        simpa [notNL] using hh
      subst hr1
      refine ⟨List.dropWhile isPyWs (s.takeWhile notNL), splitLines r1s, ?_, ?_⟩
      · rw [hrw, hR, splitLines_append_newline hnl1]
      · exact pyStrip_dropWhile _

/-! ## Sanitizer proofs, part 5: idempotence of the line scan -/

theorem lineClean_idem (x : List Char) : lineClean (lineClean x) = lineClean x := by
  cases hfc : findCodeStart (splitLines x) with
  | none =>
    have hall : ∀ l ∈ splitLines x, predLine l = false :=
      findCodeStart_eq_none_iff.mp hfc
    have hall2 : ∀ l ∈ splitLines (pyStrip x), predLine l = false := by
      intro l hl
      obtain ⟨l2, hl2, he⟩ := lines_strip_transfer l hl
      rw [← predLine_congr he]
      exact hall l2 hl2
    have hfc2 : findCodeStart (splitLines (pyStrip x)) = none :=
      findCodeStart_eq_none_iff.mpr hall2
    rw [show lineClean x = pyStrip x from by unfold lineClean; rw [hfc]]
    unfold lineClean
    rw [hfc2, pyStrip_idem]
  | some i =>
    obtain ⟨ℓ, rest, hdrop, hpred⟩ := findCodeStart_some_drop hfc
    have hstripℓ : pyStrip ℓ ≠ [] := by
      intro he
      unfold predLine at hpred
      rw [he] at hpred
      simp at hpred
    cases i with
    | zero =>
      have hlx : lineClean x = pyStrip x := by
        unfold lineClean
        rw [hfc]
        simp
      obtain ⟨r0, hr0⟩ := splitLines_head x
      have hℓ : ℓ = x.takeWhile notNL := by
        rw [List.drop_zero, hr0] at hdrop
        exact (List.cons.injEq _ _ _ _ ▸ hdrop).1.symm
      have hne : pyStrip (x.takeWhile notNL) ≠ [] := by
        rw [← hℓ]
        exact hstripℓ
      obtain ⟨ℓ2, r2, hsp, hse⟩ := strip_head_line hne
      have h2 : pyStrip ℓ2 = pyStrip ℓ := by
        rw [hse, hℓ]
      have hpred2 : predLine ℓ2 = true := by
        rw [predLine_congr h2]
        exact hpred
      rw [hlx]
      unfold lineClean
      rw [hsp, findCodeStart_cons_true hpred2]
      simp [pyStrip_idem]
    | succ j =>
      have hlx : lineClean x = pyStrip (joinLines ((splitLines x).drop (j + 1))) := by
        unfold lineClean
        rw [hfc]
        simp
      have hlx2 : lineClean x = pyStrip (joinLines (ℓ :: rest)) := by
        rw [hlx, hdrop]
      have hmem : ℓ ∈ splitLines x := by
        have h3 : ℓ ∈ (splitLines x).drop (j + 1) := by
          rw [hdrop]
          exact List.mem_cons_self _ _
        exact List.mem_of_mem_drop h3
      have hnl : '\n' ∉ ℓ := mem_splitLines_no_newline hmem
      have hallnl : ∀ c ∈ ℓ, notNL c = true := by
        intro c hc
        simp only [notNL, bne_iff_ne, ne_eq]
        exact fun e => hnl (e ▸ hc)
      have hfl : (joinLines (ℓ :: rest)).takeWhile notNL = ℓ := by
        cases rest with
        | nil =>
          show (joinLines [ℓ]).takeWhile notNL = ℓ
          simp only [joinLines]
          exact List.takeWhile_eq_self_iff.mpr hallnl
        | cons b rest2 =>
          show (joinLines (ℓ :: b :: rest2)).takeWhile notNL = ℓ
          simp only [joinLines]
          rw [List.takeWhile_append_of_pos hallnl]
          simp [List.takeWhile_cons, notNL]
      have hne : pyStrip ((joinLines (ℓ :: rest)).takeWhile notNL) ≠ [] := by
        rw [hfl]
        exact hstripℓ
      obtain ⟨ℓ2, r2, hsp, hse⟩ := strip_head_line hne
      have h2 : pyStrip ℓ2 = pyStrip ℓ := by
        rw [hse, hfl]
      have hpred2 : predLine ℓ2 = true := by
        rw [predLine_congr h2]
        exact hpred
      rw [hlx2]
      unfold lineClean
      rw [hsp, findCodeStart_cons_true hpred2]
      simp [pyStrip_idem]

/-! ## Sanitizer proofs, part 6: the output never contains a fence marker -/

theorem triTicks_expand : triTicks = [tickChar, tickChar, tickChar] := by decide

theorem hasSub_iff {pat l : List Char} : hasSub pat l = true ↔ pat <:+: l := by
  induction l with
  | nil =>
    simp only [hasSub, List.isEmpty_iff]
    constructor
    · intro h
      subst h
      exact List.infix_rfl
    · intro h
      have hle := h.sublist.length_le
      simp only [List.length_nil, Nat.le_zero, List.length_eq_zero] at hle
      exact hle
  | cons c cs ih =>
    simp only [hasSub, Bool.or_eq_true, List.isPrefixOf_iff_prefix, ih]
    rw [List.infix_cons_iff]

theorem capture_isPrefix {l cap : List Char} (h : captureUpToTicks l = some cap) :
    cap <+: l := by
  induction l generalizing cap with
  | nil => simp [captureUpToTicks] at h
  | cons c cs ih =>
    by_cases hp : triTicks.isPrefixOf (c :: cs) = true
    · simp only [captureUpToTicks, if_pos hp, Option.some.injEq] at h
      subst h
      exact List.nil_prefix
    · simp only [captureUpToTicks, if_neg hp] at h
      rcases ho : captureUpToTicks cs with _ | cap2
      · rw [ho] at h
        simp at h
      · rw [ho] at h
        simp only [Option.map_some', Option.some.injEq] at h
        subst h
        obtain ⟨t, ht⟩ := ih ho
        exact ⟨t, by rw [List.cons_append, ht]⟩

theorem capture_noTri {l cap : List Char} (h : captureUpToTicks l = some cap) :
    ¬ triTicks <:+: cap := by
  induction l generalizing cap with
  | nil => simp [captureUpToTicks] at h
  | cons c cs ih =>
    by_cases hp : triTicks.isPrefixOf (c :: cs) = true
    · simp only [captureUpToTicks, if_pos hp, Option.some.injEq] at h
      subst h
      intro hinf
      have hle := hinf.sublist.length_le
      rw [triTicks_expand] at hle
      simp at hle
    · simp only [captureUpToTicks, if_neg hp] at h
      rcases ho : captureUpToTicks cs with _ | cap2
      · rw [ho] at h
        simp at h
      · rw [ho] at h
        simp only [Option.map_some', Option.some.injEq] at h
        subst h
        intro hinf
        rcases List.infix_cons_iff.mp hinf with hpre | hinf2
        · apply hp
          rw [List.isPrefixOf_iff_prefix]
          have hc2 := capture_isPrefix ho
          rcases List.prefix_cons_iff.mp hpre with he | ⟨tl, htl, htlp⟩
          · rw [triTicks_expand] at he
            simp at he
          · rw [htl]
            obtain ⟨t2, ht2⟩ := htlp.trans hc2
            exact ⟨t2, by rw [List.cons_append, ht2]⟩
        · exact ih ho hinf2

theorem findFence_noTri {l cap : List Char} (h : findFence l = some cap) :
    ¬ triTicks <:+: cap := by
  induction l generalizing cap with
  | nil => simp [findFence] at h
  | cons c cs ih =>
    rcases ho : openFenceLen (c :: cs) with _ | k
    · simp only [findFence, ho] at h
      exact ih h
    · simp only [findFence, ho] at h
      rcases hc : captureUpToTicks (List.drop k (c :: cs)) with _ | cap2
      · rw [hc] at h
        exact ih h
      · rw [hc] at h
        simp only [Option.some.injEq] at h
        subst h
        exact capture_noTri hc

theorem isPrefixOf_triTicks_iff {l : List Char} :
    triTicks.isPrefixOf l = true ↔
      ∃ r, l = tickChar :: tickChar :: tickChar :: r := by
  rw [List.isPrefixOf_iff_prefix, triTicks_expand]
  constructor
  · rintro ⟨t, ht⟩
    exact ⟨t, ht.symm⟩
  · rintro ⟨r, hr⟩
    exact ⟨r, hr.symm⟩

theorem leadTicks_le_one {x : List Char}
    (h : ¬ ∃ r, x = tickChar :: tickChar :: r) : leadTicks x ≤ 1 := by
  cases x with
  | nil => simp [leadTicks]
  | cons a y =>
    by_cases ha : a = tickChar
    · subst ha
      cases y with
      | nil => simp [leadTicks]
      | cons b z =>
        by_cases hb : b = tickChar
        · subst hb
          exact absurd ⟨z, rfl⟩ h
        · simp [leadTicks, hb]
    · simp [leadTicks, ha]

theorem le_leadTicks_of_prefix2 {x : List Char}
    (h : [tickChar, tickChar] <+: x) : 2 ≤ leadTicks x := by
  obtain ⟨t, ht⟩ := h
  rw [← ht]
  simp [leadTicks]

theorem exists2_of_le_leadTicks {x : List Char} (h : 2 ≤ leadTicks x) :
    ∃ r, x = tickChar :: tickChar :: r := by
  cases x with
  | nil => simp [leadTicks] at h
  | cons a y =>
    by_cases ha : a = tickChar
    · subst ha
      cases y with
      | nil => simp [leadTicks] at h
      | cons b z =>
        by_cases hb : b = tickChar
        · subst hb
          exact ⟨z, rfl⟩
        · simp [leadTicks, hb] at h
    · simp [leadTicks, ha] at h

theorem replaceAll_tri_leadTicks (l : List Char) :
    leadTicks (replaceAllE triTicks l) = leadTicks l % 3 := by
  have main : ∀ n (x : List Char), x.length ≤ n →
      leadTicks (replaceAllE triTicks x) = leadTicks x % 3 := by
    intro n
    induction n with
    | zero =>
      intro x hx
      have : x = [] := List.length_eq_zero.mp (Nat.le_zero.mp hx)
      subst this
      simp [replaceAllE, leadTicks]
    | succ m ih =>
      intro x hx
      cases x with
      | nil => simp [replaceAllE, leadTicks]
      | cons c cs =>
        by_cases hp : triTicks.isPrefixOf (c :: cs) = true
        · obtain ⟨r, hr⟩ := isPrefixOf_triTicks_iff.mp hp
          have hc : c = tickChar := by
            injection hr with h1 _
          have hcs : cs = tickChar :: tickChar :: r := by
            injection hr with _ h2
          have hdrop : List.drop (triTicks.length - 1) cs = r := by
            rw [hcs, triTicks_expand]
            rfl
          rw [show replaceAllE triTicks (c :: cs) =
              replaceAllE triTicks (List.drop (triTicks.length - 1) cs) from by
            rw [replaceAllE, if_pos hp], hdrop]
          have hrlen : r.length ≤ m := by
            rw [hcs] at hx
            simp at hx
            omega
          rw [ih r hrlen]
          have hlead : leadTicks (c :: cs) = 3 + leadTicks r := by
            rw [hc, hcs]
            simp [leadTicks]
            omega
          rw [hlead, Nat.add_mod_left]
        · rw [show replaceAllE triTicks (c :: cs) =
              c :: replaceAllE triTicks cs from by rw [replaceAllE, if_neg hp]]
          have ihcs := ih cs (by simp at hx; omega)
          by_cases hc : c = tickChar
          · subst hc
            have hnot : ¬ ∃ r, cs = tickChar :: tickChar :: r := by
              rintro ⟨r, hr⟩
              exact hp (isPrefixOf_triTicks_iff.mpr ⟨r, by rw [hr]⟩)
            have hle : leadTicks cs ≤ 1 := leadTicks_le_one hnot
            have hm1 : leadTicks cs % 3 = leadTicks cs := Nat.mod_eq_of_lt (by omega)
            have hm2 : (leadTicks cs + 1) % 3 = leadTicks cs + 1 :=
              Nat.mod_eq_of_lt (by omega)
            have hstep : ∀ z : List Char,
                leadTicks (tickChar :: z) = leadTicks z + 1 := by
              intro z
              simp [leadTicks]
            rw [hstep, hstep, ihcs, hm1, hm2]
          · simp [leadTicks, hc]
  exact main l.length l le_rfl

theorem replaceAll_tri_noTri (l : List Char) :
    ¬ triTicks <:+: replaceAllE triTicks l := by
  have main : ∀ n (x : List Char), x.length ≤ n →
      ¬ triTicks <:+: replaceAllE triTicks x := by
    intro n
    induction n with
    | zero =>
      intro x hx
      have : x = [] := List.length_eq_zero.mp (Nat.le_zero.mp hx)
      subst this
      intro hinf
      have hle := hinf.sublist.length_le
      rw [triTicks_expand] at hle
      simp [replaceAllE] at hle
    | succ m ih =>
      intro x hx
      cases x with
      | nil =>
        intro hinf
        have hle := hinf.sublist.length_le
        rw [triTicks_expand] at hle
        simp [replaceAllE] at hle
      | cons c cs =>
        by_cases hp : triTicks.isPrefixOf (c :: cs) = true
        · obtain ⟨r, hr⟩ := isPrefixOf_triTicks_iff.mp hp
          have hcs : cs = tickChar :: tickChar :: r := by
            injection hr with _ h2
          have hdrop : List.drop (triTicks.length - 1) cs = r := by
            rw [hcs, triTicks_expand]
            rfl
          rw [show replaceAllE triTicks (c :: cs) =
              replaceAllE triTicks (List.drop (triTicks.length - 1) cs) from by
            rw [replaceAllE, if_pos hp], hdrop]
          refine ih r ?_
          rw [hcs] at hx
          simp at hx
          omega
        · rw [show replaceAllE triTicks (c :: cs) =
              c :: replaceAllE triTicks cs from by rw [replaceAllE, if_neg hp]]
          have ihcs := ih cs (by simp at hx; omega)
          intro hinf
          rcases List.infix_cons_iff.mp hinf with hpre | hinf2
          · rcases List.prefix_cons_iff.mp hpre with he | ⟨tl, htl, htlp⟩
            · rw [triTicks_expand] at he
              simp at he
            · have hc : c = tickChar := by
                rw [triTicks_expand] at htl
                injection htl with h1 _
                exact h1.symm
              have htl2 : tl = [tickChar, tickChar] := by
                rw [triTicks_expand] at htl
                injection htl with _ h2
                exact h2.symm
              rw [htl2] at htlp
              have hge := le_leadTicks_of_prefix2 htlp
              rw [replaceAll_tri_leadTicks cs] at hge
              have hge2 : 2 ≤ leadTicks cs := le_trans hge (Nat.mod_le _ _)
              obtain ⟨r, hr⟩ := exists2_of_le_leadTicks hge2
              exact hp (isPrefixOf_triTicks_iff.mpr ⟨r, by rw [hr, hc]⟩)
          · exact ihcs hinf2
  exact main l.length l le_rfl

theorem triple_infix_append_cons {x y : List Char}
    (h : triTicks <:+: x ++ '\n' :: y) : triTicks <:+: x ∨ triTicks <:+: y := by
  induction x with
  | nil =>
    rcases List.infix_cons_iff.mp (by simpa using h) with hpre | hinf
    · exfalso
      rcases List.prefix_cons_iff.mp hpre with he | ⟨tl, htl, _⟩
      · rw [triTicks_expand] at he
        simp at he
      · rw [triTicks_expand] at htl
        injection htl with h1 _
        exact absurd h1.symm (by decide)
    · exact Or.inr hinf
  | cons c x2 ih =>
    rcases List.infix_cons_iff.mp (by simpa using h) with hpre | hinf
    · left
      obtain ⟨t, ht⟩ := hpre
      rw [triTicks_expand] at ht
      cases x2 with
      | nil =>
        exfalso
        simp only [List.cons_append, List.nil_append] at ht
        injection ht with h1 hrest
        injection hrest with h2 _
        exact absurd h2 (by decide)
      | cons c2 x3 =>
        cases x3 with
        | nil =>
          exfalso
          simp only [List.cons_append, List.nil_append] at ht
          injection ht with h1 hrest
          injection hrest with h2 hrest2
          injection hrest2 with h3 _
          exact absurd h3 (by decide)
        | cons c3 x4 =>
          simp only [List.cons_append] at ht
          injection ht with h1 hrest
          injection hrest with h2 hrest2
          injection hrest2 with h3 _
          subst h1
          subst h2
          subst h3
          refine (show triTicks <+: tickChar :: tickChar :: tickChar :: x4 from
            ⟨x4, ?_⟩).isInfix
          rw [triTicks_expand]
          rfl
    · rcases ih hinf with h1 | h2
      · exact Or.inl (List.infix_cons h1)
      · exact Or.inr h2

theorem joinLines_noTri {L : List (List Char)}
    (h : ∀ l ∈ L, ¬ triTicks <:+: l) : ¬ triTicks <:+: joinLines L := by
  induction L with
  | nil =>
    intro hinf
    have hle := hinf.sublist.length_le
    rw [triTicks_expand] at hle
    simp [joinLines] at hle
  | cons a L2 ih =>
    cases L2 with
    | nil => simpa [joinLines] using h a (List.mem_cons_self _ _)
    | cons b L3 =>
      intro hinf
      simp only [joinLines] at hinf
      rcases triple_infix_append_cons hinf with h1 | h2
      · exact h a (List.mem_cons_self _ _) h1
      · exact ih (fun l hl => h l (List.mem_cons_of_mem _ hl)) h2

theorem lineClean_noTri {x : List Char} (h : ¬ triTicks <:+: x) :
    ¬ triTicks <:+: lineClean x := by
  have hstrip : ∀ y : List Char, ¬ triTicks <:+: y → ¬ triTicks <:+: pyStrip y :=
    fun y hy hinf => hy (hinf.trans (pyStrip_within y))
  cases hfc : findCodeStart (splitLines x) with
  | none =>
    have he : lineClean x = pyStrip x := by
      unfold lineClean
      rw [hfc]
    rw [he]
    exact hstrip x h
  | some i =>
    cases i with
    | zero =>
      have he : lineClean x = pyStrip x := by
        unfold lineClean
        rw [hfc]
        simp
      rw [he]
      exact hstrip x h
    | succ j =>
      have he : lineClean x = pyStrip (joinLines ((splitLines x).drop (j + 1))) := by
        unfold lineClean
        rw [hfc]
        simp
      rw [he]
      apply hstrip
      apply joinLines_noTri
      intro l hl hinf
      exact h (hinf.trans (mem_splitLines_within (List.mem_of_mem_drop hl)))

theorem fenceStep_noTri (x : List Char) : ¬ triTicks <:+: fenceStep x := by
  by_cases hf : hasFence x = true
  · cases hff : findFence x with
    | some cap =>
      have he : fenceStep x = pyStrip cap := by
        unfold fenceStep
        rw [if_pos hf, hff]
      rw [he]
      intro hinf
      exact findFence_noTri hff (hinf.trans (pyStrip_within cap))
    | none =>
      have he : fenceStep x =
          pyStrip (replaceAllE triTicks
            (replaceAllE fencePyTag (replaceAllE fencePythonTag x))) := by
        unfold fenceStep
        rw [if_pos hf, hff]
      rw [he]
      intro hinf
      exact replaceAll_tri_noTri _ (hinf.trans (pyStrip_within _))
  · have he : fenceStep x = x := by
      unfold fenceStep
      rw [if_neg hf]
    rw [he]
    intro hinf
    exact hf (hasSub_iff.mpr hinf)

theorem cleanCodeL_idem (l : List Char) : cleanCodeL (cleanCodeL l) = cleanCodeL l := by
  unfold cleanCodeL
  have h1 : ¬ triTicks <:+: lineClean (fenceStep l) :=
    lineClean_noTri (fenceStep_noTri l)
  have h2 : fenceStep (lineClean (fenceStep l)) = lineClean (fenceStep l) := by
    unfold fenceStep
    rw [if_neg]
    intro hf
    exact h1 (hasSub_iff.mp hf)
  rw [h2, lineClean_idem]

/-- C7: the Code Sanitizer `_clean_code` is idempotent: cleaning an already
cleaned text changes nothing.  The first pass leaves no fence marker in the
output (the regex capture stops before the first closing fence, and the
fallback deletes every marker), so the second pass's fence branch is a no-op,
and the preamble-dropping line scan composed with the final strip is itself
idempotent. -/
theorem clean_code_idempotent (x : String) :
    clean_code (clean_code x) = clean_code x := by
  unfold clean_code
  show String.mk (cleanCodeL (cleanCodeL x.data)) = String.mk (cleanCodeL x.data)
  rw [cleanCodeL_idem]
